import Mathlib


/-!
Shallow embedding of the HPACK integer codec
(`src/header/hpack/integers.rs`) and of the HPACK static table
(`src/hpack/table/static_table.rs`) of the `kurisu_http2` repository,
together with theorems settling the specification claims about them.

Modelling conventions, used uniformly below:
* Rust `u8` / `u32` values are `Nat`s; wrapping 32-bit arithmetic
  (release-build overflow semantics) is written with an explicit
  `% 4294967296` (that is `% 2 ^ 32`), and a shift amount is masked with
  `% 32` exactly as release builds mask it.
* Bitwise operations on bytes are written in their exact arithmetic form:
  `b & 127 = b % 128`, `b & mask = b % 2 ^ N` for `mask = 2 ^ N - 1`,
  `b & 128 == 128` iff `b / 128 % 2 = 1` (bit 7 of `b`), and
  `0x80 | (b & 0x7f) = 128 + b % 128`.  Each of these identities holds for
  every `Nat`, so the definitions compute the same results as the source.
* The byte iterators of the source are `List Nat`s consumed from the
  front; `decode_integer` returns, next to the `Result`, the list of
  octets the iterator has not consumed, which models the final cursor
  position of the `&mut` iterator argument.
* A fallible Rust path (`Result`) becomes `Except String`, carrying the
  exact error strings of the source (including its spelling
  "to many octets"); an `unwrap()` that can panic becomes `Option`, with
  `none` modelling the panic.
-/

/-- The prefix mask of `decode_integer` (integers.rs lines 45-49):
`0xFF` when the prefix size is 8, otherwise `(1u8 << prefix_size) - 1`,
which equals `2 ^ psize - 1` for every reachable `psize` (the validity
check `1 <= psize <= 8` has already run when the mask is computed, and
`psize = 8` takes the first branch). -/
def pmask (psize : Nat) : Nat :=
  if psize = 8 then 255 else 2 ^ psize - 1

/-- `let octet_limit = 5;` of integers.rs line 70. -/
def octet_limit : Nat := 5

/-- The continuation-octet loop of `decode_integer` (integers.rs lines
72-90), one list element per iteration of `for (i, b) in bts.enumerate()`:
`value += ((b & 127) as u32) * (1 << m)` with wrapping (release) `u32`
semantics, written `(value + b % 128 * 2 ^ (m % 32)) % 4294967296`;
then `m += 7`; a clear high bit (`b & 128 != 128`, i.e.
`b / 128 % 2 ≠ 1`) returns `Ok(value)`; reaching `i == octet_limit`
with the high bit still set returns the too-many-octets error; an
exhausted iterator falls through to the not-enough-octets error.
The second component is the unconsumed remainder of the iterator. -/
def decode_loop (bts : List Nat) (value : Nat) (m : Nat) (i : Nat) :
    (Except String Nat) × (List Nat) :=
  match bts with
  | [] => (Except.error "hpack integer: not enough octets", [])
  | b :: rest =>
    let value2 := (value + b % 128 * 2 ^ (m % 32)) % 4294967296
    if b / 128 % 2 ≠ 1 then (Except.ok value2, rest)
    else if i = octet_limit then
      (Except.error "hpack integer: to many octets", rest)
    else decode_loop rest value2 (m + 7) (i + 1)

/-- `decode_integer` (integers.rs lines 34-91).  The prefix-size check
precedes any read of the iterator; an empty source yields the
"(0)" flavour of the not-enough-octets error; otherwise the first octet
is masked (`tv & mask = tv % 2 ^ psize` since `mask = 2 ^ psize - 1`),
a value strictly below the mask is returned at once, and otherwise the
continuation loop `decode_loop` runs with `m = 0` and `i = 0`. -/
def decode_integer (bts : List Nat) (psize : Nat) :
    (Except String Nat) × (List Nat) :=
  if psize < 1 ∨ psize > 8 then
    (Except.error "hpack integer: invalid prefix", bts)
  else
    match bts with
    | [] => (Except.error "hpack integer: not enough octets (0)", [])
    | tv :: rest =>
      let value := tv % 2 ^ psize
      if value < pmask psize then (Except.ok value, rest)
      else decode_loop rest value 0 0

/-- The continuation-octet loop of `encode_integer` (integers.rs lines
110-124), returning the emitted octets: while `n >= 128` emit
`0x80 | (n as u8 & 0x7f)` (that is `128 + n % 128`) and shift `n >>= 7`
(that is `n / 128`); a remainder below 128 is emitted as the final octet
`n as u8` (that is `n % 256`).  The source's `if n == 0 \x7b break; \x7d`
after the shift is kept although it is unreachable (`n >= 128` forces
`n / 128 >= 1`). -/
def encode_chunks (n : Nat) : List Nat :=
  if h : n < 128 then [n % 256]
  else
    let br := 128 + n % 128
    if n / 128 = 0 then [br] else br :: encode_chunks (n / 128)
termination_by n
decreasing_by simp_wf; omega

/-- `encode_integer` (integers.rs lines 94-125), as the list of octets it
writes when the output sink is long enough.  `check = (1 << prefix_size)
- 1` in `u32` arithmetic, i.e. `2 ^ (psize % 32) - 1`; the first octet is
zeroed and then OR-ed with `n as u8` (`n % 256`) when `n < check`, else
with `check as u8` (`check % 256`) followed by the continuation octets of
`n - check`. -/
def encode_integer (n : Nat) (psize : Nat) : List Nat :=
  let check := 2 ^ (psize % 32) - 1
  if n < check then [n % 256] else check % 256 :: encode_chunks (n - check)

/-- The continuation-octet loop of `encode_integer` writing through the
caller's sink iterator (integers.rs lines 110-124): each iteration takes
the next slot with `bts.next().unwrap()` — `none` models the panic when
the sink is exhausted — overwrites it, and the untouched tail of the
buffer is kept.  Chunk arithmetic is exactly that of `encode_chunks`. -/
def encode_rest (n : Nat) (buf : List Nat) : Option (List Nat) :=
  match buf with
  | [] => none
  | _br :: rest =>
    if n < 128 then some (n % 256 :: rest)
    else
      let br := 128 + n % 128
      if n / 128 = 0 then some (br :: rest)
      else Option.map (fun out => br :: out) (encode_rest (n / 128) rest)

/-- `encode_integer` (integers.rs lines 94-125) writing through the
caller's sink iterator: `buf` is the current content of the remaining
slots, the result is the whole updated buffer, and `none` models the
panic of `bts.next().unwrap()` on an exhausted sink
(integers.rs lines 98 and 111). -/
def encode_into (n : Nat) (buf : List Nat) (psize : Nat) :
    Option (List Nat) :=
  let check := 2 ^ (psize % 32) - 1
  match buf with
  | [] => none
  | _fb :: rest =>
    if n < check then some (n % 256 :: rest)
    else Option.map (fun out => check % 256 :: out)
      (encode_rest (n - check) rest)

/-- `STATIC_TABLE` (static_table.rs lines 34-96): the 61 fixed
name/value pairs, in source order. -/
def STATIC_TABLE : List (String × String) := [
  (":authority", ""),
  (":method", "GET"),
  (":method", "POST"),
  (":path", "/"),
  (":path", "/index.html"),
  (":scheme", "http"),
  (":scheme", "https"),
  (":status", "200"),
  (":status", "204"),
  (":status", "206"),
  (":status", "304"),
  (":status", "400"),
  (":status", "404"),
  (":status", "500"),
  ("accept-charset", ""),
  ("accept-encoding", "gzip, deflate"),
  ("accept-language", ""),
  ("accept-ranges", ""),
  ("accept", ""),
  ("access-control-allow-origin", ""),
  ("age", ""),
  ("allow", ""),
  ("authorization", ""),
  ("cache-control", ""),
  ("content-disposition", ""),
  ("content-encoding", ""),
  ("content-language", ""),
  ("content-length", ""),
  ("content-location", ""),
  ("content-range", ""),
  ("content-type", ""),
  ("cookie", ""),
  ("date", ""),
  ("etag", ""),
  ("expect", ""),
  ("expires", ""),
  ("from", ""),
  ("host", ""),
  ("if-match", ""),
  ("if-modified-since", ""),
  ("if-none-match", ""),
  ("if-range", ""),
  ("if-unmodified-since", ""),
  ("last-modified", ""),
  ("link", ""),
  ("location", ""),
  ("max-forwards", ""),
  ("proxy-authenticate", ""),
  ("proxy-authorization", ""),
  ("range", ""),
  ("referer", ""),
  ("refresh", ""),
  ("retry-after", ""),
  ("server", ""),
  ("set-cookie", ""),
  ("strict-transport-security", ""),
  ("transfer-encoding", ""),
  ("user-agent", ""),
  ("vary", ""),
  ("via", ""),
  ("www-authenticate", "")
  ]

/-- `StaticTable::new` (static_table.rs lines 15-23): builds the owned
table by pushing, for each entry of `STATIC_TABLE`, the pair of its two
strings (`to_string` preserves the characters; the `Rc` sharing is a
memory optimization with no observable effect on lookups). -/
def StaticTable.new : List (String × String) :=
  STATIC_TABLE.map (fun e => (e.1, e.2))

/-- `impl Index<usize> for StaticTable` (static_table.rs lines 25-31):
`&self.0[_index]`, with the out-of-bounds panic of `Vec` indexing
modelled as `none`. -/
def StaticTable.index (t : List (String × String)) (i : Nat) :
    Option (String × String) :=
  t.get? i

theorem pmask_eq (psize : Nat) (h : psize ≤ 8) : pmask psize = 2 ^ psize - 1 := by
  unfold pmask
  by_cases h8 : psize = 8 <;> simp [h8]

theorem encode_chunks_small (n : Nat) (h : n < 128) : encode_chunks n = [n % 256] := by
  rw [encode_chunks]
  simp [h]

theorem encode_chunks_big (n : Nat) (h : ¬ n < 128) :
    encode_chunks n = (128 + n % 128) :: encode_chunks (n / 128) := by
  rw [encode_chunks]
  have hd : ¬ n / 128 = 0 := by omega
  simp [h, hd]

theorem encode_chunks_length_le :
    ∀ k n, 1 ≤ k → n < 2 ^ (7 * k) → (encode_chunks n).length ≤ k := by
  intro k
  induction k with
  | zero => intro n h hn; omega
  | succ k ih =>
    intro n _ hn
    by_cases h : n < 128
    · rw [encode_chunks_small n h]
      simp
    · rw [encode_chunks_big n h]
      have hk1 : 1 ≤ k := by
        by_contra hc
        have : k = 0 := by omega
        subst this
        simp at hn
        omega
      have hpow : (2:Nat) ^ (7 * (k + 1)) = 2 ^ (7 * k) * 128 := by
        rw [show 7 * (k + 1) = 7 * k + 7 by ring, pow_add]
        norm_num
      have hdiv : n / 128 < 2 ^ (7 * k) := by
        rw [Nat.div_lt_iff_lt_mul (by norm_num)]
        omega
      have := ih (n / 128) hk1 hdiv
      simp
      omega

theorem encode_chunks_length_pos (n : Nat) : 1 ≤ (encode_chunks n).length := by
  by_cases h : n < 128
  · rw [encode_chunks_small n h]; simp
  · rw [encode_chunks_big n h]; simp

theorem decode_loop_encode_chunks :
    ∀ n i acc rest, i ≤ 4 → n < 2 ^ (7 * (5 - i)) →
      acc + n * 2 ^ (7 * i) < 4294967296 →
      decode_loop (encode_chunks n ++ rest) acc (7 * i) i =
        (Except.ok (acc + n * 2 ^ (7 * i)), rest) := by
  intro n
  induction n using Nat.strong_induction_on with
  | _ n ih =>
    intro i acc rest hi hn hb
    have hm32 : 7 * i % 32 = 7 * i := Nat.mod_eq_of_lt (by omega)
    by_cases h : n < 128
    · rw [encode_chunks_small n h]
      have h256 : n % 256 = n := Nat.mod_eq_of_lt (by omega)
      have htest : n / 128 % 2 ≠ 1 := by omega
      simp only [List.cons_append, List.nil_append, decode_loop, hm32, h256]
      rw [if_pos htest]
      have h128 : n % 128 = n := Nat.mod_eq_of_lt h
      rw [h128, Nat.mod_eq_of_lt hb]
      rfl
    · rw [encode_chunks_big n h]
      have hi3 : i ≤ 3 := by
        by_contra hc
        have hi4 : i = 4 := by omega
        subst hi4
        simp at hn
        omega
      have hbyte : (128 + n % 128) / 128 % 2 = 1 := by omega
      have hbmod : (128 + n % 128) % 128 = n % 128 := by omega
      simp only [List.cons_append, decode_loop, hm32, hbmod]
      rw [if_neg (by simp [hbyte]), if_neg (by simp [octet_limit]; omega)]
      have hle : n % 128 ≤ n := Nat.mod_le n 128
      have hstep : acc + n % 128 * 2 ^ (7 * i) ≤ acc + n * 2 ^ (7 * i) :=
        Nat.add_le_add_left (Nat.mul_le_mul_right _ hle) acc
      rw [Nat.mod_eq_of_lt (by omega)]
      have hpow : (2:Nat) ^ (7 * (i + 1)) = 2 ^ (7 * i) * 128 := by
        rw [show 7 * (i + 1) = 7 * i + 7 by ring, pow_add]
        norm_num
      have hpow2 : (2:Nat) ^ (7 * (5 - i)) = 2 ^ (7 * (5 - (i + 1))) * 128 := by
        rw [show 7 * (5 - i) = 7 * (5 - (i + 1)) + 7 by omega, pow_add]
        norm_num
      have hsplit : n % 128 * 2 ^ (7 * i) + n / 128 * 2 ^ (7 * (i + 1)) =
          n * 2 ^ (7 * i) := by
        rw [hpow]
        have : n % 128 + 128 * (n / 128) = n := Nat.mod_add_div n 128
        nlinarith [this]
      have h7 : 7 * i + 7 = 7 * (i + 1) := by ring
      rw [h7, List.append_eq]
      rw [ih (n / 128) (by omega) (i + 1) (acc + n % 128 * 2 ^ (7 * i)) rest
        (by omega)
        (by rw [Nat.div_lt_iff_lt_mul (by norm_num)]; omega)
        (by omega)]
      congr 2
      omega

theorem decode_loop_all_high_insufficient :
    ∀ tail i m value, (∀ b ∈ tail, 128 ≤ b ∧ b < 256) →
      i + tail.length ≤ 5 →
      decode_loop tail value m i =
        (Except.error "hpack integer: not enough octets", []) := by
  intro tail
  induction tail with
  | nil => intro i m value _ _; rfl
  | cons b rest ih =>
    intro i m value hall hlen
    have hb := hall b (by simp)
    have hbit : ¬ b / 128 % 2 ≠ 1 := by omega
    simp only [decode_loop]
    rw [if_neg hbit, if_neg (by simp [octet_limit]; simp at hlen; omega)]
    exact ih (i + 1) (m + 7) _ (fun x hx => hall x (by simp [hx])) (by simp at hlen ⊢; omega)

theorem decode_loop_all_high_toomany :
    ∀ tail i m value, (∀ b ∈ tail, 128 ≤ b ∧ b < 256) →
      i + tail.length = 6 → i ≤ 5 →
      (decode_loop tail value m i).1 =
        Except.error "hpack integer: to many octets" := by
  intro tail
  induction tail with
  | nil => intro i m value _ hlen hi; simp at hlen; omega
  | cons b rest ih =>
    intro i m value hall hlen hi
    have hb := hall b (by simp)
    have hbit : ¬ b / 128 % 2 ≠ 1 := by omega
    simp only [decode_loop]
    rw [if_neg hbit]
    by_cases h5 : i = octet_limit
    · rw [if_pos h5]
    · rw [if_neg h5]
      simp only [octet_limit] at h5
      exact ih (i + 1) (m + 7) _ (fun x hx => hall x (by simp [hx]))
        (by simp at hlen ⊢; omega) (by omega)

/-- Claim C1: round-trip — for every prefix width in [1,8] and every value
below 2^28, decoding the octets produced by the encoder with the same
prefix width returns Ok of the same value (and consumes exactly those
octets). -/
theorem c1_round_trip (psize v : Nat) (h1 : 1 ≤ psize) (h2 : psize ≤ 8)
    (h3 : v < 2 ^ 28) :
    decode_integer (encode_integer v psize) psize = (Except.ok v, []) := by
  have hps32 : psize % 32 = psize := Nat.mod_eq_of_lt (by omega)
  have hpm : pmask psize = 2 ^ psize - 1 := pmask_eq psize h2
  have hcheck : (2:Nat) ^ psize - 1 ≤ 255 := by
    have : (2:Nat) ^ psize ≤ 2 ^ 8 := Nat.pow_le_pow_right (by norm_num) h2
    simp at this
    omega
  have hmaskpos : 1 ≤ (2:Nat) ^ psize - 1 := by
    have : (2:Nat) ^ 1 ≤ 2 ^ psize := Nat.pow_le_pow_right (by norm_num) h1
    simp at this
    omega
  unfold encode_integer
  simp only [hps32]
  by_cases hv : v < 2 ^ psize - 1
  · rw [if_pos hv]
    unfold decode_integer
    rw [if_neg (by omega)]
    simp only []
    have hv256 : v % 256 = v := Nat.mod_eq_of_lt (by omega)
    rw [hv256]
    have : v % 2 ^ psize = v := Nat.mod_eq_of_lt (by omega)
    rw [this, hpm, if_pos hv]
  · rw [if_neg hv]
    unfold decode_integer
    rw [if_neg (by omega)]
    simp only []
    have hc256 : (2 ^ psize - 1) % 256 = 2 ^ psize - 1 := Nat.mod_eq_of_lt (by omega)
    rw [hc256]
    have hmm : (2 ^ psize - 1) % 2 ^ psize = 2 ^ psize - 1 :=
      Nat.mod_eq_of_lt (by omega)
    rw [hmm, hpm, if_neg (by omega)]
    have := decode_loop_encode_chunks (v - (2 ^ psize - 1)) 0 (2 ^ psize - 1) []
      (by omega) (by norm_num; omega) (by norm_num; omega)
    simp only [List.append_nil, Nat.mul_zero, pow_zero, Nat.mul_one] at this
    rw [this]
    congr 2
    omega

theorem c1_round_trip_witness :
    decode_integer (encode_integer 1337 5) 5 = (Except.ok 1337, []) :=
  c1_round_trip 5 1337 (by norm_num) (by norm_num) (by norm_num)

/-- Claim C3: for every prefix width in [1,8], a 7-octet sequence whose
octets all have the high bit set — a prefix octet whose low bits all
equal the mask followed by 6 unterminated continuation octets — is
rejected with the too-many-octets error. -/
theorem c3_too_many_octets (psize b0 : Nat) (tail : List Nat)
    (h1 : 1 ≤ psize) (h2 : psize ≤ 8)
    (hb0l : 128 ≤ b0) (hb0u : b0 < 256)
    (hb0m : b0 % 2 ^ psize = pmask psize)
    (hlen : tail.length = 6)
    (hall : ∀ b ∈ tail, 128 ≤ b ∧ b < 256) :
    (decode_integer (b0 :: tail) psize).1 =
      Except.error "hpack integer: to many octets" := by
  unfold decode_integer
  rw [if_neg (by omega)]
  simp only [hb0m]
  rw [if_neg (by omega)]
  exact decode_loop_all_high_toomany tail 0 0 (pmask psize) hall (by omega) (by omega)

theorem c3_too_many_octets_witness :
    (decode_integer [255, 255, 255, 255, 255, 255, 255] 5).1 =
      Except.error "hpack integer: to many octets" :=
  c3_too_many_octets 5 255 [255, 255, 255, 255, 255, 255]
    (by norm_num) (by norm_num) (by norm_num) (by norm_num)
    (by decide) (by decide) (by decide)

/-- Claim C5: a prefix width of 0 or above 8 is rejected with the
invalid-prefix error before any octet of the source is consumed: the
returned cursor still holds the entire input. -/
theorem c5_invalid_psize (bts : List Nat) (psize : Nat)
    (h : psize = 0 ∨ 8 < psize) :
    decode_integer bts psize =
      (Except.error "hpack integer: invalid prefix", bts) := by
  unfold decode_integer
  rw [if_pos (by omega)]

theorem c5_invalid_psize_witness :
    decode_integer [65] 9 = (Except.error "hpack integer: invalid prefix", [65]) :=
  c5_invalid_psize [65] 9 (Or.inr (by norm_num))

/-- Claim C6: for every prefix width in [1,8], decoding an empty source
fails with the insufficient-input error ("not enough octets (0)"), and
decoding a prefix octet equal to the mask followed by at most 5
unterminated continuation octets (high bit set, no terminator) exhausts
the source and fails with the insufficient-input error
("not enough octets"). -/
theorem c6_insufficient_input (psize : Nat) (tail : List Nat)
    (h1 : 1 ≤ psize) (h2 : psize ≤ 8)
    (hall : ∀ b ∈ tail, 128 ≤ b ∧ b < 256) (hlen : tail.length ≤ 5) :
    decode_integer [] psize =
        (Except.error "hpack integer: not enough octets (0)", []) ∧
      (decode_integer (pmask psize :: tail) psize).1 =
        Except.error "hpack integer: not enough octets" := by
  constructor
  · unfold decode_integer
    rw [if_neg (by omega)]
  · unfold decode_integer
    rw [if_neg (by omega)]
    have hpm : pmask psize = 2 ^ psize - 1 := pmask_eq psize h2
    have hub : (2:Nat) ^ psize ≤ 256 := by
      have : (2:Nat) ^ psize ≤ 2 ^ 8 := Nat.pow_le_pow_right (by norm_num) h2
      simpa using this
    have hlb : 1 ≤ (2:Nat) ^ psize := Nat.one_le_two_pow
    simp only [hpm]
    rw [Nat.mod_eq_of_lt (by omega), if_neg (by omega)]
    rw [decode_loop_all_high_insufficient tail 0 0 _ hall (by omega)]

theorem c6_insufficient_input_witness :
    decode_integer [] 5 =
        (Except.error "hpack integer: not enough octets (0)", []) ∧
      (decode_integer (pmask 5 :: [255, 255]) 5).1 =
        Except.error "hpack integer: not enough octets" :=
  c6_insufficient_input 5 [255, 255] (by norm_num) (by norm_num)
    (by decide) (by decide)

theorem decode_loop_ok_bound :
    ∀ (bts : List Nat) (i acc v : Nat) (rem : List Nat),
      acc < 2 ^ (7 * i) + 256 →
      decode_loop bts acc (7 * i) i = (Except.ok v, rem) →
      v < 4294967296 ∧
        ∃ k, 1 ≤ k ∧ k ≤ bts.length ∧
          (5 ≤ i + k ∨
            (acc ≤ v ∧ v ≤ acc + 2 ^ (7 * i) * (2 ^ (7 * k) - 1))) := by
  intro bts
  induction bts with
  | nil =>
    intro i acc v rem _ h
    simp [decode_loop] at h
  | cons b rest ih =>
    intro i acc v rem hacc h
    have hppos : 1 ≤ (2:Nat) ^ (7 * i) := Nat.one_le_two_pow
    simp only [decode_loop] at h
    by_cases hbit : b / 128 % 2 ≠ 1
    · rw [if_pos hbit] at h
      rw [Prod.mk.injEq, Except.ok.injEq] at h
      obtain ⟨hv, hrem⟩ := h
      refine ⟨?_, 1, le_refl 1, by simp, ?_⟩
      · rw [← hv]; exact Nat.mod_lt _ (by norm_num)
      by_cases hi : 4 ≤ i
      · left; omega
      · right
        have hm32 : 7 * i % 32 = 7 * i := Nat.mod_eq_of_lt (by omega)
        have hple : (2:Nat) ^ (7 * i) ≤ 2 ^ 21 :=
          Nat.pow_le_pow_right (by norm_num) (by omega)
        have hbb : b % 128 * 2 ^ (7 * i) ≤ 127 * 2 ^ (7 * i) :=
          Nat.mul_le_mul_right _ (by omega)
        have hnw : acc + b % 128 * 2 ^ (7 * i) < 4294967296 := by
          norm_num at hple ⊢
          omega
        rw [← hv, hm32, Nat.mod_eq_of_lt hnw]
        have h127 : (2:Nat) ^ (7 * 1) - 1 = 127 := by norm_num
        rw [h127]
        have h4 : (127:Nat) * 2 ^ (7 * i) = 2 ^ (7 * i) * 127 := Nat.mul_comm ..
        constructor
        · omega
        · omega
    · rw [if_neg hbit] at h
      by_cases h5 : i = octet_limit
      · rw [if_pos h5] at h
        simp at h
      · rw [if_neg h5] at h
        simp only [octet_limit] at h5
        have h77 : 7 * i + 7 = 7 * (i + 1) := by ring
        rw [h77] at h
        have hpow : (2:Nat) ^ (7 * (i + 1)) = 2 ^ (7 * i) * 128 := by
          rw [show 7 * (i + 1) = 7 * i + 7 by ring, pow_add]
          norm_num
        have hinv : (acc + b % 128 * 2 ^ (7 * i % 32)) % 4294967296 <
            2 ^ (7 * (i + 1)) + 256 := by
          by_cases hi : 4 ≤ i
          · have h32 : (4294967296:Nat) ≤ 2 ^ (7 * (i + 1)) := by
              calc (4294967296:Nat) = 2 ^ 32 := by norm_num
                _ ≤ 2 ^ (7 * (i + 1)) :=
              Nat.pow_le_pow_right (by norm_num) (by omega)
            have := Nat.mod_lt (acc + b % 128 * 2 ^ (7 * i % 32))
              (show 0 < 4294967296 by norm_num)
            omega
          · have hm32 : 7 * i % 32 = 7 * i := Nat.mod_eq_of_lt (by omega)
            rw [hm32]
            have hbb : b % 128 * 2 ^ (7 * i) ≤ 127 * 2 ^ (7 * i) :=
              Nat.mul_le_mul_right _ (by omega)
            have hmle := Nat.mod_le (acc + b % 128 * 2 ^ (7 * i)) 4294967296
            omega
        obtain ⟨hv32, k', hk'1, hk'len, hdisj⟩ := ih (i + 1) _ v rem hinv h
        refine ⟨hv32, k' + 1, by omega, by simp; omega, ?_⟩
        by_cases hik : 5 ≤ i + (k' + 1)
        · left; exact hik
        · right
          have hik4 : i + k' + 1 ≤ 4 := by omega
          rcases hdisj with hl | ⟨hlow, hup⟩
          · omega
          · have hm32 : 7 * i % 32 = 7 * i := Nat.mod_eq_of_lt (by omega)
            have hple : (2:Nat) ^ (7 * i) ≤ 2 ^ 14 :=
              Nat.pow_le_pow_right (by norm_num) (by omega)
            have hbb : b % 128 * 2 ^ (7 * i) ≤ 127 * 2 ^ (7 * i) :=
              Nat.mul_le_mul_right _ (by omega)
            have hnowrap : acc + b % 128 * 2 ^ (7 * i) < 4294967296 := by
              norm_num at hple ⊢
              omega
            rw [hm32, Nat.mod_eq_of_lt hnowrap] at hlow hup
            constructor
            · omega
            · have hq : (2:Nat) ^ (7 * (k' + 1)) = 2 ^ (7 * k') * 128 := by
                rw [show 7 * (k' + 1) = 7 * k' + 7 by ring, pow_add]
                norm_num
              have hqpos : 1 ≤ (2:Nat) ^ (7 * k') := Nat.one_le_two_pow
              have e1 : 2 ^ (7 * k') * 128 - 1 = 128 * (2 ^ (7 * k') - 1) + 127 := by
                omega
              calc v ≤ acc + b % 128 * 2 ^ (7 * i) +
                    2 ^ (7 * (i + 1)) * (2 ^ (7 * k') - 1) := hup
                _ ≤ acc + 2 ^ (7 * i) * (2 ^ (7 * (k' + 1)) - 1) := by
                    rw [hpow, hq, e1, Nat.mul_add]
                    have h3 : 2 ^ (7 * i) * 128 * (2 ^ (7 * k') - 1) =
                        2 ^ (7 * i) * (128 * (2 ^ (7 * k') - 1)) := by ring
                    have h4 : (127:Nat) * 2 ^ (7 * i) = 2 ^ (7 * i) * 127 :=
                      Nat.mul_comm ..
                    omega

/-- Claim C4: the encoder is octet-minimal — any input that the decoder
accepts as the value v is at least as long as the encoder's output for v;
in particular one octet encodes `mask - 1`, at least two octets encode
`mask`, and any 32-bit value needs at most 6 octets (1 prefix octet plus
at most 5 continuation octets). -/
theorem c4_minimality (psize : Nat) (h1 : 1 ≤ psize) (h2 : psize ≤ 8) :
    (∀ bs v, (decode_integer bs psize).1 = Except.ok v →
      (encode_integer v psize).length ≤ bs.length) ∧
    (encode_integer (pmask psize - 1) psize).length = 1 ∧
    2 ≤ (encode_integer (pmask psize) psize).length ∧
    (∀ v, v < 4294967296 → (encode_integer v psize).length ≤ 6) := by
  have hps32 : psize % 32 = psize := Nat.mod_eq_of_lt (by omega)
  have hpm : pmask psize = 2 ^ psize - 1 := pmask_eq psize h2
  have hub : (2:Nat) ^ psize ≤ 256 := by
    have : (2:Nat) ^ psize ≤ 2 ^ 8 := Nat.pow_le_pow_right (by norm_num) h2
    simpa using this
  have hlb : (2:Nat) ≤ 2 ^ psize := by
    have : (2:Nat) ^ 1 ≤ 2 ^ psize := Nat.pow_le_pow_right (by norm_num) h1
    simpa using this
  have hchunks5 : ∀ w : Nat, w < 4294967296 → (encode_chunks w).length ≤ 5 := by
    intro w hw
    exact encode_chunks_length_le 5 w (by norm_num) (by norm_num; omega)
  refine ⟨?_, ?_, ?_, ?_⟩
  · intro bs v hdec
    unfold decode_integer at hdec
    rw [if_neg (by omega)] at hdec
    match bs with
    | [] => simp at hdec
    | tv :: rest =>
      simp only [] at hdec
      by_cases hsmall : tv % 2 ^ psize < pmask psize
      · rw [if_pos hsmall] at hdec
        simp at hdec
        subst hdec
        unfold encode_integer
        rw [hps32, if_pos (by omega)]
        simp
      · rw [if_neg hsmall] at hdec
        have hvaleq : tv % 2 ^ psize = pmask psize := by
          have := Nat.mod_lt tv (show 0 < 2 ^ psize by omega)
          omega
        rw [hvaleq] at hdec
        have hfull : decode_loop rest (pmask psize) 0 0 =
            (Except.ok v, (decode_loop rest (pmask psize) 0 0).2) :=
          Prod.ext hdec rfl
        obtain ⟨hv32, k, hk1, hklen, hdisj⟩ :=
          decode_loop_ok_bound rest 0 (pmask psize) v
            (decode_loop rest (pmask psize) 0 0).2 (by norm_num; omega)
            (by simpa using hfull)
        norm_num at hdisj
        unfold encode_integer
        rw [hps32]
        by_cases hvc : v < 2 ^ psize - 1
        · rw [if_pos hvc]
          simp
        · rw [if_neg hvc]
          simp only [List.length_cons, List.length]
          rcases hdisj with hl | ⟨hlow, hup⟩
          · have := hchunks5 (v - (2 ^ psize - 1)) (by omega)
            simp
            omega
          · have hchk : (encode_chunks (v - (2 ^ psize - 1))).length ≤ k := by
              apply encode_chunks_length_le k _ hk1
              have hq : 1 ≤ (2:Nat) ^ (7 * k) := Nat.one_le_two_pow
              omega
            simp
            omega
  · unfold encode_integer
    rw [hps32, if_pos (by omega)]
    simp
  · unfold encode_integer
    rw [hps32, if_neg (by omega)]
    simp
    have := encode_chunks_length_pos (pmask psize - (2 ^ psize - 1))
    omega
  · intro v hv
    unfold encode_integer
    rw [hps32]
    by_cases hvc : v < 2 ^ psize - 1
    · rw [if_pos hvc]
      simp
    · rw [if_neg hvc]
      simp
      have := hchunks5 (v - (2 ^ psize - 1)) (by omega)
      omega

theorem c4_minimality_witness :
    (encode_integer (pmask 5 - 1) 5).length = 1 ∧
      2 ≤ (encode_integer (pmask 5) 5).length :=
  ⟨(c4_minimality 5 (by norm_num) (by norm_num)).2.1,
   (c4_minimality 5 (by norm_num) (by norm_num)).2.2.1⟩

/-- Claim C2 (code bug): decoding the 6-octet sequence FF FF FF FF FF 7F
with prefix width 8 succeeds with Ok 254, although the octets represent
255 + 127·(2^0 + 2^7 + 2^14 + 2^21 + 2^28) = 2^35 + 254, which exceeds
the unsigned 32-bit range: the fifth continuation chunk is accumulated as
127 · 2^28 and wraps (release builds) or panics (debug builds), so the
continuation-octet cap does not make overflow structurally impossible. -/
theorem c2_accumulation_overflows :
    (decode_integer [255, 255, 255, 255, 255, 127] 8).1 = Except.ok 254 ∧
      255 + 127 * (2 ^ 0 + 2 ^ 7 + 2 ^ 14 + 2 ^ 21 + 2 ^ 28) = 2 ^ 35 + 254 ∧
      4294967296 ≤ 2 ^ 35 + 254 := by
  refine ⟨by rfl, by norm_num, by norm_num⟩

/-- Claim C7: the concrete RFC 7541 scenarios. -/
theorem c7_rfc_scenarios :
    (decode_integer [0x41] 8).1 = Except.ok 65 ∧
      (decode_integer [0xFF, 0x05] 8).1 = Except.ok 260 ∧
      (decode_integer [0x1F, 0x9A, 0x0A] 5).1 = Except.ok 1337 ∧
      encode_integer 1337 5 = [0x1F, 0x9A, 0x0A] ∧
      encode_integer 4 2 = [0x03, 0x01] := by
  refine ⟨by rfl, by rfl, by rfl, ?_, ?_⟩
  · unfold encode_integer
    rw [if_neg (by norm_num)]
    rw [show (1337:Nat) - (2 ^ (5 % 32) - 1) = 1306 by norm_num]
    rw [encode_chunks_big 1306 (by norm_num)]
    rw [show (1306:Nat) / 128 = 10 by norm_num]
    rw [encode_chunks_small 10 (by norm_num)]
    norm_num
  · unfold encode_integer
    rw [if_neg (by norm_num)]
    rw [show (4:Nat) - (2 ^ (2 % 32) - 1) = 1 by norm_num]
    rw [encode_chunks_small 1 (by norm_num)]
    norm_num

theorem encode_rest_length :
    ∀ n (buf : List Nat),
      ((encode_chunks n).length ≤ buf.length →
        (encode_rest n buf).isSome = true) ∧
      (buf.length < (encode_chunks n).length → encode_rest n buf = none) := by
  intro n
  induction n using Nat.strong_induction_on with
  | _ n ih =>
    intro buf
    by_cases h : n < 128
    · rw [encode_chunks_small n h]
      constructor
      · intro hle
        match buf with
        | [] => simp at hle
        | b :: rest =>
          simp only [encode_rest]
          rw [if_pos h]
          rfl
      · intro hlt
        match buf with
        | [] => rfl
        | b :: rest => simp at hlt
    · rw [encode_chunks_big n h]
      have hd : ¬ n / 128 = 0 := by omega
      constructor
      · intro hle
        match buf with
        | [] => simp at hle
        | b :: rest =>
          simp only [encode_rest]
          rw [if_neg h, if_neg hd]
          have hrec := (ih (n / 128) (by omega) rest).1 (by simp at hle ⊢; omega)
          obtain ⟨o, ho⟩ := Option.isSome_iff_exists.mp hrec
          rw [ho]
          rfl
      · intro hlt
        match buf with
        | [] => rfl
        | b :: rest =>
          simp only [encode_rest]
          rw [if_neg h, if_neg hd]
          have hrec := (ih (n / 128) (by omega) rest).2 (by simp at hlt ⊢; omega)
          rw [hrec]
          rfl

theorem encode_into_length (n psize : Nat) (buf : List Nat) :
    ((encode_integer n psize).length ≤ buf.length →
      (encode_into n buf psize).isSome = true) ∧
    (buf.length < (encode_integer n psize).length →
      encode_into n buf psize = none) := by
  unfold encode_into encode_integer
  by_cases h : n < 2 ^ (psize % 32) - 1
  · rw [if_pos h]
    constructor
    · intro hle
      match buf with
      | [] => simp at hle
      | b :: rest =>
        simp only []
        rw [if_pos h]
        rfl
    · intro hlt
      match buf with
      | [] => rfl
      | b :: rest => simp at hlt
  · rw [if_neg h]
    constructor
    · intro hle
      match buf with
      | [] => simp at hle
      | b :: rest =>
        simp only []
        rw [if_neg h]
        have hrec := (encode_rest_length (n - (2 ^ (psize % 32) - 1)) rest).1
          (by simp at hle ⊢; omega)
        obtain ⟨o, ho⟩ := Option.isSome_iff_exists.mp hrec
        rw [ho]
        rfl
    · intro hlt
      match buf with
      | [] => rfl
      | b :: rest =>
        simp only []
        rw [if_neg h]
        have hrec := (encode_rest_length (n - (2 ^ (psize % 32) - 1)) rest).2
          (by simp at hlt ⊢; omega)
        rw [hrec]
        rfl

theorem encode_integer_length_le_six (n psize : Nat)
    (hn : n < 4294967296) (h2 : psize ≤ 8) :
    (encode_integer n psize).length ≤ 6 := by
  have hps32 : psize % 32 = psize := Nat.mod_eq_of_lt (by omega)
  unfold encode_integer
  rw [hps32]
  by_cases hvc : n < 2 ^ psize - 1
  · rw [if_pos hvc]
    simp
  · rw [if_neg hvc]
    simp
    have := encode_chunks_length_le 5 (n - (2 ^ psize - 1))
      (by norm_num) (by norm_num; omega)
    omega

/-- Claim C8: the encoder never reports a sink error — with at least 6
available slots every `bts.next().unwrap()` succeeds for any 32-bit value
and prefix width in [1,8]; with fewer slots than the encoding needs, the
call panics (modelled as `none`) instead of returning an error. -/
theorem c8_sink_behaviour (n psize : Nat) (hn : n < 4294967296)
    (h1 : 1 ≤ psize) (h2 : psize ≤ 8) (buf : List Nat) :
    (6 ≤ buf.length → (encode_into n buf psize).isSome = true) ∧
    (buf.length < (encode_integer n psize).length →
      encode_into n buf psize = none) := by
  constructor
  · intro h6
    exact (encode_into_length n psize buf).1
      (le_trans (encode_integer_length_le_six n psize hn h2) h6)
  · exact (encode_into_length n psize buf).2

theorem c8_sink_behaviour_witness :
    (encode_into 300 [7, 7, 7, 7, 7, 7] 5).isSome = true ∧
      encode_into 300 [7, 7] 5 = none := by
  constructor
  · exact (c8_sink_behaviour 300 5 (by norm_num) (by norm_num) (by norm_num)
      [7, 7, 7, 7, 7, 7]).1 (by norm_num)
  · refine (c8_sink_behaviour 300 5 (by norm_num) (by norm_num) (by norm_num)
      [7, 7]).2 ?_
    unfold encode_integer
    rw [if_neg (by norm_num)]
    rw [show (300:Nat) - (2 ^ (5 % 32) - 1) = 269 by norm_num]
    rw [encode_chunks_big 269 (by norm_num)]
    rw [show (269:Nat) / 128 = 2 by norm_num]
    rw [encode_chunks_small 2 (by norm_num)]
    norm_num

/-- Claim C9: whatever octet the caller left in the first sink slot, a
successful `encode_into` overwrites it completely: the first octet of the
result is below 2 ^ psize, so its flag bits (bits psize..7) are zero and
any caller-stored flags are erased. -/
theorem c9_flag_bits_cleared (n psize : Nat) (h1 : 1 ≤ psize)
    (h2 : psize ≤ 8) (buf out : List Nat)
    (h : encode_into n buf psize = some out) :
    ∃ b rest, out = b :: rest ∧ b < 2 ^ psize := by
  have hps32 : psize % 32 = psize := Nat.mod_eq_of_lt (by omega)
  have hlb : (1:Nat) ≤ 2 ^ psize := Nat.one_le_two_pow
  have hub : (2:Nat) ^ psize ≤ 256 := by
    have : (2:Nat) ^ psize ≤ 2 ^ 8 := Nat.pow_le_pow_right (by norm_num) h2
    simpa using this
  unfold encode_into at h
  rw [hps32] at h
  match buf with
  | [] => simp at h
  | fb :: rest =>
    simp only [] at h
    by_cases hn : n < 2 ^ psize - 1
    · rw [if_pos hn] at h
      refine ⟨n % 256, rest, ?_, ?_⟩
      · simp at h
        exact h.symm
      · have := Nat.mod_le n 256
        omega
    · rw [if_neg hn] at h
      obtain ⟨o, ho, hout⟩ := Option.map_eq_some'.mp h
      refine ⟨(2 ^ psize - 1) % 256, o, hout.symm, ?_⟩
      rw [Nat.mod_eq_of_lt (by omega)]
      omega

theorem c9_flag_bits_cleared_witness :
    ∃ b rest, [31, 141, 2, 7, 7, 7] = b :: rest ∧ b < 2 ^ 5 := by
  refine c9_flag_bits_cleared 300 5 (by norm_num) (by norm_num)
    [7, 7, 7, 7, 7, 7] [31, 141, 2, 7, 7, 7] ?_
  rfl

/-- Claim C10: the static table holds exactly 61 fixed name/value
entries, and indexing the built table at any position below 61 returns
the entry of `STATIC_TABLE` at that position, in order. -/
theorem c10_static_table :
    StaticTable.new.length = 61 ∧
      ∀ i, i < 61 →
        StaticTable.index StaticTable.new i = STATIC_TABLE.get? i ∧
          (StaticTable.index StaticTable.new i).isSome = true := by
  have hnew : StaticTable.new = STATIC_TABLE := by
    unfold StaticTable.new
    simp
  have hlen : STATIC_TABLE.length = 61 := by rfl
  refine ⟨by rw [hnew, hlen], ?_⟩
  intro i hi
  unfold StaticTable.index
  rw [hnew]
  refine ⟨rfl, ?_⟩
  rw [List.get?_eq_get (by omega)]
  rfl

theorem c10_static_table_witness :
    StaticTable.index StaticTable.new 1 = STATIC_TABLE.get? 1 ∧
      (StaticTable.index StaticTable.new 1).isSome = true :=
  c10_static_table.2 1 (by norm_num)
